import Mathlib

/-!
# Verification of the QKD simulator core (state engine and protocol bookkeeping)

A shallow embedding of the quantum-state/measurement engine (`src/state.py`,
`src/shared_fns.py`) and of the protocol bookkeeping operations
(`src/components.py`, `src/qkd_protocols.py`) of the AdvProject QKD simulator,
together with proofs about the embedded operations.

Conventions used throughout:

* numpy float vectors/matrices are modelled over `ℝ`; a Python
  `{key: value}` dictionary is modelled extensionally as a function
  `key → Option value` (Python dict equality is content equality, which
  coincides with function equality of this model);
* a Python `raise` is modelled with `Except`;
* `np.linalg.eigh` is an external oracle: code depending on it is modelled
  as a function of the (eigenvalue, eigenvector-matrix) pair it returns,
  constrained by the guarantees numpy documents (orthonormal columns,
  eigenvalues in ascending order).
-/

set_option maxHeartbeats 1000000

namespace Spec2Proof

open Matrix
open scoped Kronecker

/-! ## `shared_fns.normalise` (spec-modelled) and the state constructor -/

/-- Modelled from the spec: `shared_fns.normalise` is called by
`NQubitState.__init__` and `NQubitState.measure` (src/state.py lines 31 and
121) but its definition is absent from the provided `shared_fns.py`.  The spec
says the coefficient vector is "L2-normalized after every construction and
after every measurement", so `normalise` divides the vector by its L2 norm. -/
noncomputable def normalise {ι : Type} [Fintype ι] (v : ι → ℝ) : ι → ℝ :=
  fun i => v i / Real.sqrt (∑ j, v j ^ 2)

/-- The single error class used by `NQubitState.__init__` (src/state.py lines
18–28): both the all-zero check and the power-of-two length check raise a
`ValueError` (the spec's `InvalidStateError`). -/
inductive StateError : Type
  | invalidState
  deriving DecidableEq

/-- Constructor `NQubitState.__init__` (src/state.py lines 8–41).  First check: the
coefficients must not all be zero (`np.allclose(coefficients, zeros)`,
idealised to exact equality).  Second check: the length must be a positive
power of two, tested in the source with the bit trick
`size == 0 or (size & (size - 1)) != 0`.  On success the stored coefficient
vector is the normalised input. -/
noncomputable def NQubitState_init {m : ℕ} (v : Fin m → ℝ) :
    Except StateError (Fin m → ℝ) :=
  if ∀ i, v i = 0 then .error .invalidState
  else if m = 0 ∨ m &&& (m - 1) ≠ 0 then .error .invalidState
  else .ok (normalise v)

/-! ### The power-of-two bit trick -/

lemma land_bit_false_left (j n : ℕ) :
    (2 * j) &&& (2 * n + 1) = 2 * (j &&& n) := by
  have h := Nat.land_bit false j true n
  simpa [Nat.bit] using h

lemma land_bit_true_left (j n : ℕ) :
    (2 * j + 1) &&& (2 * n) = 2 * (j &&& n) := by
  have h := Nat.land_bit true j false n
  simpa [Nat.bit] using h

lemma land_bit_false_false (j n : ℕ) :
    (2 * j) &&& (2 * n) = 2 * (j &&& n) := by
  have h := Nat.land_bit false j false n
  simpa [Nat.bit] using h

lemma land_self_eq (n : ℕ) : n &&& n = n :=
  Nat.eq_of_testBit_eq fun i => by simp [Nat.testBit_land]

/-- Correctness of the source's power-of-two test (src/state.py lines 24–25):
for non-zero `m`, `m &&& (m - 1) = 0` holds exactly when `m` is a power of
two. -/
theorem land_pred_eq_zero_iff {m : ℕ} (hm : m ≠ 0) :
    m &&& (m - 1) = 0 ↔ ∃ k, m = 2 ^ k := by
  induction m using Nat.strong_induction_on with
  | _ m ih =>
    rcases Nat.even_or_odd m with hev | hodd
    · -- m = 2 * j with j ≠ 0
      obtain ⟨j, hj⟩ : ∃ j, m = 2 * j := by
        obtain ⟨j, hj⟩ := hev; exact ⟨j, by omega⟩
      subst hj
      have hj0 : j ≠ 0 := by rintro rfl; exact hm (by ring)
      have hjlt : j < 2 * j := by omega
      have hpred : 2 * j - 1 = 2 * (j - 1) + 1 := by omega
      constructor
      · intro h
        rw [hpred, land_bit_false_left] at h
        have hland : j &&& (j - 1) = 0 := by omega
        obtain ⟨k, hk⟩ := (ih j hjlt hj0).mp hland
        exact ⟨k + 1, by rw [hk, pow_succ]; ring⟩
      · rintro ⟨k, hk⟩
        have hk0 : k ≠ 0 := by rintro rfl; omega
        obtain ⟨k', rfl⟩ := Nat.exists_eq_succ_of_ne_zero hk0
        have hj2 : j = 2 ^ k' := by
          rw [pow_succ] at hk; omega
        have hland : j &&& (j - 1) = 0 := (ih j hjlt hj0).mpr ⟨k', hj2⟩
        rw [hpred, land_bit_false_left, hland]
    · -- m = 2 * j + 1
      obtain ⟨j, hj⟩ := hodd
      subst hj
      constructor
      · intro h
        rcases Nat.eq_zero_or_pos j with hj0 | hj0
        · exact ⟨0, by omega⟩
        · exfalso
          have hpred : 2 * j + 1 - 1 = 2 * j := by omega
          rw [hpred, land_bit_true_left, land_self_eq] at h
          omega
      · rintro ⟨k, hk⟩
        rcases Nat.eq_zero_or_pos k with rfl | hkpos
        · have hj0 : j = 0 := by simp at hk; omega
          subst hj0; rfl
        · exfalso
          have : 2 ∣ 2 ^ k := dvd_pow_self 2 (by omega)
          omega

/-- If some coefficient is non-zero, the normalised vector has unit L2 norm. -/
lemma sum_normalise_sq {ι : Type} [Fintype ι] (v : ι → ℝ)
    (hv : ∃ i, v i ≠ 0) : ∑ i, normalise v i ^ 2 = 1 := by
  obtain ⟨i₀, hi₀⟩ := hv
  have hS : 0 < ∑ j, v j ^ 2 :=
    Finset.sum_pos' (fun j _ => sq_nonneg _)
      ⟨i₀, Finset.mem_univ _, by positivity⟩
  have hsq : Real.sqrt (∑ j, v j ^ 2) ^ 2 = ∑ j, v j ^ 2 :=
    Real.sq_sqrt hS.le
  simp only [normalise, div_pow, hsq]
  rw [← Finset.sum_div, div_self hS.ne']

/-- C8: `NQubitState` construction (src/state.py lines 8–41) fails with the
invalid-state error exactly when all coefficients are zero or the length is
not a power of two; on every other input it succeeds and stores the input
normalised to unit L2 norm. -/
theorem C8_init_error_iff {m : ℕ} (v : Fin m → ℝ) :
    (NQubitState_init v = .error .invalidState ↔
      ((∀ i, v i = 0) ∨ ¬∃ k, m = 2 ^ k))
    ∧ (¬(∀ i, v i = 0) → (∃ k, m = 2 ^ k) →
        NQubitState_init v = .ok (normalise v)
        ∧ ∑ i, normalise v i ^ 2 = 1) := by
  classical
  constructor
  · by_cases h1 : ∀ i, v i = 0
    · simp only [NQubitState_init, if_pos h1]
      exact ⟨fun _ => Or.inl h1, fun _ => trivial⟩
    · have hm : m ≠ 0 := by
        rintro rfl
        exact h1 (fun i => absurd i.2 (by omega))
      by_cases h2 : m = 0 ∨ m &&& (m - 1) ≠ 0
      · simp only [NQubitState_init, if_neg h1, if_pos h2]
        have : ¬∃ k, m = 2 ^ k := by
          rcases h2 with h2 | h2
          · exact absurd h2 hm
          · exact fun hk => h2 ((land_pred_eq_zero_iff hm).mpr hk)
        exact ⟨fun _ => Or.inr this, fun _ => trivial⟩
      · simp only [NQubitState_init, if_neg h1, if_neg h2]
        push_neg at h2
        have hk : ∃ k, m = 2 ^ k := (land_pred_eq_zero_iff hm).mp h2.2
        constructor
        · intro h; exact absurd h (by simp)
        · rintro (h | h)
          · exact absurd h h1
          · exact absurd hk h
  · intro h1 hk
    have hm : m ≠ 0 := by
      rintro rfl
      obtain ⟨k, hk⟩ := hk
      have h2k : 0 < 2 ^ k := pow_pos (by norm_num) k
      omega
    have h2 : ¬(m = 0 ∨ m &&& (m - 1) ≠ 0) := by
      push_neg
      exact ⟨hm, (land_pred_eq_zero_iff hm).mpr hk⟩
    refine ⟨by simp only [NQubitState_init, if_neg h1, if_neg h2], ?_⟩
    push_neg at h1
    exact sum_normalise_sq v h1

/-- Closed witness for `C8_init_error_iff`: the vector `(3, 4)` of length 2
is accepted and stored normalised. -/
theorem C8_init_error_iff_witness :
    NQubitState_init (![3, 4] : Fin 2 → ℝ) = .ok (normalise ![3, 4])
    ∧ ∑ i, normalise (![3, 4] : Fin 2 → ℝ) i ^ 2 = 1 :=
  (C8_init_error_iff (![3, 4] : Fin 2 → ℝ)).2
    (by
      intro h
      have := h 0
      norm_num at this)
    ⟨1, by norm_num⟩

/-! ## `QKDProtocol.required_num_check_bits` (src/qkd_protocols.py lines 137–139) -/

/-- Function `required_num_check_bits(security)` (src/qkd_protocols.py lines 137–139):
`math.ceil(math.log(1 - security) / math.log(0.75))`, modelled over `ℝ`. -/
noncomputable def required_num_check_bits (security : ℝ) : ℤ :=
  ⌈Real.log (1 - security) / Real.log 0.75⌉

/-- C4: `required_num_check_bits(security)` equals
`ceil(log(1 - security) / log 0.75)`, is monotonically non-decreasing on
`[0, 1)`, and is `0` at `security = 0`. -/
theorem C4_required_num_check_bits :
    (∀ s : ℝ, required_num_check_bits s = ⌈Real.log (1 - s) / Real.log 0.75⌉)
    ∧ (∀ s₁ s₂ : ℝ, 0 ≤ s₁ → s₁ ≤ s₂ → s₂ < 1 →
        required_num_check_bits s₁ ≤ required_num_check_bits s₂)
    ∧ required_num_check_bits 0 = 0 := by
  refine ⟨fun s => rfl, ?_, ?_⟩
  · intro s₁ s₂ h0 h12 h21
    have hlogneg : Real.log 0.75 < 0 := Real.log_neg (by norm_num) (by norm_num)
    have hpos2 : (0 : ℝ) < 1 - s₂ := by linarith
    have hpos1 : (0 : ℝ) < 1 - s₁ := by linarith
    have hle : Real.log (1 - s₂) ≤ Real.log (1 - s₁) :=
      (Real.log_le_log_iff hpos2 hpos1).mpr (by linarith)
    exact Int.ceil_le_ceil (div_le_div_of_nonpos_of_le hlogneg.le hle)
  · simp [required_num_check_bits]

/-- Closed witness for `C4_required_num_check_bits`: monotonicity applied at
the concrete pair `(0, 1/2)`. -/
theorem C4_required_num_check_bits_witness :
    required_num_check_bits 0 ≤ required_num_check_bits (1 / 2) :=
  C4_required_num_check_bits.2.1 0 (1 / 2) (by norm_num) (by norm_num)
    (by norm_num)

/-! ## `NQubitState.measure` (src/state.py lines 77–129)

`measure` first checks the operator's shape, then calls `np.linalg.eigh`.
`eigh` is an external oracle, so the algorithm below is modelled as a
function of its output: a matrix `V` whose columns are orthonormal
eigenvectors, and the vector `evals` of eigenvalues rounded to the nearest
integer (line 90 of the source).  The source indexes eigenspaces by
position in the sorted array `np.unique(eigenvalues)`; since that indexing
is a bijection onto the set of distinct rounded eigenvalues, the model
indexes eigenspaces directly by the rounded eigenvalue `e : ℤ`. -/

/-- Inner product `evector.dot(psi)` (src/state.py line 111/116) for column `j` of the
eigenvector matrix `V`. -/
def dotc {ι : Type} [Fintype ι] (V : Matrix ι ι ℝ) (psi : ι → ℝ) (j : ι) :
    ℝ :=
  ∑ i, V i j * psi i

/-- Probability `prob_distr[i]` (src/state.py lines 98–113): the probability that the
state collapses onto the eigenspace of rounded eigenvalue `e`, summing
`abs(evector.dot(psi)) ** 2` over the eigenvectors of that eigenspace. -/
def probDistr {ι : Type} [Fintype ι] [DecidableEq ι] (V : Matrix ι ι ℝ)
    (evals : ι → ℤ) (psi : ι → ℝ) (e : ℤ) : ℝ :=
  ∑ j in Finset.univ.filter (fun j => evals j = e), |dotc V psi j| ^ 2

/-- Projection `projections[:, i]` before normalisation (src/state.py lines 99–118):
the component of `psi` in the eigenspace of rounded eigenvalue `e`. -/
def projectionVec {ι : Type} [Fintype ι] [DecidableEq ι] (V : Matrix ι ι ℝ)
    (evals : ι → ℤ) (psi : ι → ℝ) (e : ℤ) : ι → ℝ :=
  fun i => ∑ j in Finset.univ.filter (fun j => evals j = e),
    dotc V psi j * V i j

/-- The post-measurement coefficient vector when eigenspace `e` is drawn
(src/state.py lines 121 and 128): the normalised projection. -/
noncomputable def postCoefficients {ι : Type} [Fintype ι] [DecidableEq ι]
    (V : Matrix ι ι ℝ) (evals : ι → ℤ) (psi : ι → ℝ) (e : ℤ) : ι → ℝ :=
  normalise (projectionVec V evals psi e)

/-- Column orthonormality of the `eigh` output, as entrywise sums. -/
lemma col_orthonormal {ι : Type} [Fintype ι] [DecidableEq ι]
    {V : Matrix ι ι ℝ} (hV : Vᵀ * V = 1) (j k : ι) :
    (∑ i, V i j * V i k) = if j = k then 1 else 0 := by
  have h := congrFun (congrFun hV j) k
  simpa [Matrix.mul_apply, Matrix.transpose_apply, Matrix.one_apply] using h

/-- Row orthonormality: for a square matrix, `Vᵀ * V = 1` forces
`V * Vᵀ = 1`. -/
lemma row_orthonormal {ι : Type} [Fintype ι] [DecidableEq ι]
    {V : Matrix ι ι ℝ} (hV : Vᵀ * V = 1) (i k : ι) :
    (∑ j, V i j * V k j) = if i = k then 1 else 0 := by
  have h1 : V * Vᵀ = 1 := Matrix.mul_eq_one_comm.mp hV
  have h := congrFun (congrFun h1 i) k
  simpa [Matrix.mul_apply, Matrix.transpose_apply, Matrix.one_apply] using h

/-- Reconstruction: the eigenbasis expansion of `psi` sums back to `psi`. -/
lemma sum_dotc_smul_col {ι : Type} [Fintype ι] [DecidableEq ι]
    {V : Matrix ι ι ℝ} (hV : Vᵀ * V = 1) (psi : ι → ℝ) (i : ι) :
    ∑ j, dotc V psi j * V i j = psi i := by
  calc ∑ j, dotc V psi j * V i j
      = ∑ j, ∑ k, V i j * V k j * psi k := by
        refine Finset.sum_congr rfl fun j _ => ?_
        rw [dotc, Finset.sum_mul]
        refine Finset.sum_congr rfl fun k _ => by ring
    _ = ∑ k, (∑ j, V i j * V k j) * psi k := by
        rw [Finset.sum_comm]
        refine Finset.sum_congr rfl fun k _ => by rw [Finset.sum_mul]
    _ = psi i := by
        simp only [row_orthonormal hV]
        simp [Finset.sum_ite_eq, Finset.mem_univ]

/-- Parseval: the coefficients of `psi` in the eigenbasis carry the same
total squared mass as `psi` itself. -/
lemma sum_dotc_sq {ι : Type} [Fintype ι] [DecidableEq ι]
    {V : Matrix ι ι ℝ} (hV : Vᵀ * V = 1) (psi : ι → ℝ) :
    ∑ j, dotc V psi j ^ 2 = ∑ i, psi i ^ 2 := by
  calc ∑ j, dotc V psi j ^ 2
      = ∑ j, dotc V psi j * ∑ i, V i j * psi i := by
        refine Finset.sum_congr rfl fun j _ => ?_
        rw [sq]; rfl
    _ = ∑ i, (∑ j, dotc V psi j * V i j) * psi i := by
        simp only [Finset.mul_sum]
        rw [Finset.sum_comm]
        refine Finset.sum_congr rfl fun i _ => ?_
        rw [Finset.sum_mul]
        refine Finset.sum_congr rfl fun j _ => by ring
    _ = ∑ i, psi i ^ 2 := by
        refine Finset.sum_congr rfl fun i _ => ?_
        rw [sum_dotc_smul_col hV, sq]

/-- The squared L2 norm of the unnormalised projection onto the eigenspace
of `e` equals the probability assigned to that eigenspace. -/
lemma sum_projectionVec_sq {ι : Type} [Fintype ι] [DecidableEq ι]
    {V : Matrix ι ι ℝ} (hV : Vᵀ * V = 1) (evals : ι → ℤ) (psi : ι → ℝ)
    (e : ℤ) :
    ∑ i, projectionVec V evals psi e i ^ 2 = probDistr V evals psi e := by
  classical
  set S := Finset.univ.filter (fun j => evals j = e) with hS
  calc ∑ i, projectionVec V evals psi e i ^ 2
      = ∑ i, ∑ j in S, ∑ k in S,
          dotc V psi j * dotc V psi k * (V i j * V i k) := by
        refine Finset.sum_congr rfl fun i _ => ?_
        rw [projectionVec, sq, Finset.sum_mul_sum]
        refine Finset.sum_congr rfl fun j _ => ?_
        refine Finset.sum_congr rfl fun k _ => by ring
    _ = ∑ j in S, ∑ k in S,
          dotc V psi j * dotc V psi k * ∑ i, V i j * V i k := by
        rw [Finset.sum_comm]
        refine Finset.sum_congr rfl fun j _ => ?_
        rw [Finset.sum_comm]
        refine Finset.sum_congr rfl fun k _ => by rw [Finset.mul_sum]
    _ = ∑ j in S, dotc V psi j ^ 2 := by
        refine Finset.sum_congr rfl fun j hj => ?_
        simp only [col_orthonormal hV]
        rw [Finset.sum_eq_single j]
        · simp [sq]
        · intro k hk hkj
          simp [Ne.symm hkj]
        · intro hj'; exact absurd hj hj'
    _ = probDistr V evals psi e := by
        rw [probDistr]
        exact Finset.sum_congr rfl fun j _ => by rw [sq_abs]

/-- C1: measuring a state whose coefficient vector lies entirely in a single
eigenspace of the operator (src/state.py lines 77–129) is deterministic: the
categorical distribution built at lines 98–113 assigns probability 1 to that
eigenspace and 0 to every other, so the value returned at line 126 is that
eigenspace's rounded eigenvalue (`np.random.choice` can only draw an outcome
of positive probability), and the post-measurement coefficients (line 128)
equal the pre-measurement coefficients (in particular, up to global sign). -/
theorem C1_measure_deterministic {ι : Type} [Fintype ι] [DecidableEq ι]
    (V : Matrix ι ι ℝ) (evals : ι → ℤ) (psi : ι → ℝ) (e₀ : ℤ)
    (hV : Vᵀ * V = 1) (hpsi : ∑ i, psi i ^ 2 = 1)
    (he : ∀ j, evals j ≠ e₀ → dotc V psi j = 0) :
    probDistr V evals psi e₀ = 1
    ∧ (∀ e, e ≠ e₀ → probDistr V evals psi e = 0)
    ∧ (∀ e, 0 < probDistr V evals psi e → e = e₀)
    ∧ postCoefficients V evals psi e₀ = psi := by
  classical
  have hall : ∑ j, dotc V psi j ^ 2 = 1 := by
    rw [sum_dotc_sq hV]; exact hpsi
  have hprob1 : probDistr V evals psi e₀ = 1 := by
    rw [probDistr, Finset.sum_filter, ← hall]
    refine Finset.sum_congr rfl fun j _ => ?_
    by_cases hj : evals j = e₀
    · simp [hj, sq_abs]
    · simp [hj, he j hj]
  have hprob0 : ∀ e, e ≠ e₀ → probDistr V evals psi e = 0 := by
    intro e hne
    rw [probDistr]
    refine Finset.sum_eq_zero fun j hj => ?_
    rw [Finset.mem_filter] at hj
    have : evals j ≠ e₀ := by rw [hj.2]; exact hne
    simp [he j this]
  refine ⟨hprob1, hprob0, ?_, ?_⟩
  · intro e hpos
    by_contra hne
    rw [hprob0 e hne] at hpos
    exact lt_irrefl 0 hpos
  · have hproj : projectionVec V evals psi e₀ = psi := by
      funext i
      rw [projectionVec, ← sum_dotc_smul_col hV psi i, Finset.sum_filter]
      refine Finset.sum_congr rfl fun j _ => ?_
      by_cases hj : evals j = e₀
      · simp [hj]
      · simp [hj, he j hj]
    rw [postCoefficients, hproj]
    funext i
    rw [normalise, hpsi, Real.sqrt_one, div_one]

/-- Closed witness for `C1_measure_deterministic`: the standard-basis state
`(1, 0)` measured with the eigendecomposition `(V, evals) = (I, (0, 1))` of
the standard-basis operator collapses deterministically to eigenvalue 0. -/
theorem C1_measure_deterministic_witness :
    probDistr (1 : Matrix (Fin 2) (Fin 2) ℝ) ![0, 1] ![1, 0] 0 = 1
    ∧ postCoefficients (1 : Matrix (Fin 2) (Fin 2) ℝ) ![0, 1] ![1, 0] 0
      = ![1, 0] := by
  have hV : (1 : Matrix (Fin 2) (Fin 2) ℝ)ᵀ * 1 = 1 := by simp
  have hpsi : ∑ i, (![1, 0] : Fin 2 → ℝ) i ^ 2 = 1 := by
    rw [Fin.sum_univ_two]; norm_num
  have he : ∀ j, (![0, 1] : Fin 2 → ℤ) j ≠ 0 →
      dotc (1 : Matrix (Fin 2) (Fin 2) ℝ) ![1, 0] j = 0 := by
    intro j hj
    fin_cases j
    · simp at hj
    · rw [dotc, Fin.sum_univ_two]
      simp [Matrix.one_apply]
  exact ⟨(C1_measure_deterministic 1 ![0, 1] ![1, 0] 0 hV hpsi he).1,
    (C1_measure_deterministic 1 ![0, 1] ![1, 0] 0 hV hpsi he).2.2.2⟩

/-- C2: the `NQubitState` invariant.  Part 1 (construction, src/state.py
lines 8–41): a successfully constructed coefficient vector is non-zero, has
length a power of two, and is L2-normalised.  Part 2 (measurement,
src/state.py lines 98–128): whichever eigenspace `np.random.choice` draws
from the categorical distribution (necessarily one of positive probability),
the replacement coefficient vector is non-zero and L2-normalised; its length
is preserved by construction (the model's index type is unchanged). -/
theorem C2_state_invariants :
    (∀ {m : ℕ} (v : Fin m → ℝ) (c : Fin m → ℝ),
      NQubitState_init v = .ok c →
        (∃ k, m = 2 ^ k) ∧ c ≠ 0 ∧ ∑ i, c i ^ 2 = 1)
    ∧ (∀ {ι : Type} [Fintype ι] [DecidableEq ι]
        (V : Matrix ι ι ℝ) (evals : ι → ℤ) (psi : ι → ℝ) (e : ℤ),
        Vᵀ * V = 1 → 0 < probDistr V evals psi e →
          postCoefficients V evals psi e ≠ 0
          ∧ ∑ i, postCoefficients V evals psi e i ^ 2 = 1) := by
  classical
  constructor
  · intro m v c hc
    by_cases h1 : ∀ i, v i = 0
    · rw [NQubitState_init, if_pos h1] at hc
      exact absurd hc (by simp)
    · by_cases h2 : m = 0 ∨ m &&& (m - 1) ≠ 0
      · rw [NQubitState_init, if_neg h1, if_pos h2] at hc
        exact absurd hc (by simp)
      · rw [NQubitState_init, if_neg h1, if_neg h2] at hc
        have hc' : c = normalise v := by
          injection hc with h; exact h.symm
        push_neg at h1
        push_neg at h2
        have hnorm : ∑ i, c i ^ 2 = 1 := by
          rw [hc']; exact sum_normalise_sq v h1
        refine ⟨(land_pred_eq_zero_iff h2.1).mp h2.2, ?_, hnorm⟩
        intro hc0
        rw [hc0] at hnorm
        simp at hnorm
  · intro ι _ _ V evals psi e hV hpos
    have hproj : ∑ i, projectionVec V evals psi e i ^ 2
        = probDistr V evals psi e := sum_projectionVec_sq hV evals psi e
    have hex : ∃ i, projectionVec V evals psi e i ≠ 0 := by
      by_contra hno
      push_neg at hno
      have : probDistr V evals psi e = 0 := by
        rw [← hproj]
        exact Finset.sum_eq_zero fun i _ => by rw [hno i]; ring
      rw [this] at hpos
      exact lt_irrefl 0 hpos
    have hnorm : ∑ i, postCoefficients V evals psi e i ^ 2 = 1 :=
      sum_normalise_sq _ hex
    refine ⟨?_, hnorm⟩
    intro h0
    rw [h0] at hnorm
    simp at hnorm

/-- Closed witness for `C2_state_invariants`: construction at `(3, 4)` and
measurement of `(1, 0)` with the identity eigendecomposition. -/
theorem C2_state_invariants_witness :
    ((∃ k, 2 = 2 ^ k)
      ∧ normalise (![3, 4] : Fin 2 → ℝ) ≠ 0
      ∧ ∑ i, normalise (![3, 4] : Fin 2 → ℝ) i ^ 2 = 1)
    ∧ (postCoefficients (1 : Matrix (Fin 2) (Fin 2) ℝ) ![0, 1] ![1, 0] 0 ≠ 0
      ∧ ∑ i, postCoefficients (1 : Matrix (Fin 2) (Fin 2) ℝ)
          ![0, 1] ![1, 0] 0 i ^ 2 = 1) := by
  constructor
  · refine C2_state_invariants.1 (![3, 4] : Fin 2 → ℝ) _ ?_
    have h1 : ¬∀ i, (![3, 4] : Fin 2 → ℝ) i = 0 := by
      intro h
      have := h 0
      norm_num at this
    have h2 : ¬(2 = 0 ∨ 2 &&& (2 - 1) ≠ 0) := by decide
    rw [NQubitState_init, if_neg h1, if_neg h2]
  · refine C2_state_invariants.2 1 ![0, 1] ![1, 0] 0 (by simp) ?_
    have hd : dotc (1 : Matrix (Fin 2) (Fin 2) ℝ) ![1, 0] 0 = 1 := by
      rw [dotc, Fin.sum_univ_two]
      simp [Matrix.one_apply]
    rw [probDistr, Finset.sum_filter, Fin.sum_univ_two]
    norm_num [hd]

/-! ## Operator shape validation in `NQubitState.measure`
(src/state.py lines 79–83) -/

/-- The error raised when `measure` is given a bad operator.  Both failure
modes raise a Python `ValueError`: the explicit non-square check at
src/state.py lines 81–83, and — for a square operator whose dimension does
not match the state vector — numpy itself, because `evector.dot(psi)` at
line 111/116 (or `np.random.choice` for an empty operator) raises
`ValueError` on misaligned shapes. -/
inductive MeasureError : Type
  | invalidOperator
  deriving DecidableEq

/-- The shape validation performed by a call to `measure` on an operator of
shape `rows × cols` against a state of dimension `dim`: the explicit
squareness check of src/state.py lines 79–83, followed by numpy's own
alignment failure (modelled, see `MeasureError`) when a square operator's
dimension differs from the state's. -/
def measure_shape_check (rows cols dim : ℕ) : Except MeasureError Unit :=
  if rows ≠ cols then .error .invalidOperator
  else if rows ≠ dim then .error .invalidOperator
  else .ok ()

/-- C9: `measure` fails with the invalid-operator error exactly when the
operator is not square or its dimension does not match the state's, and for
a square operator of matching dimension the error branch is unreachable. -/
theorem C9_measure_operator_validation (rows cols dim : ℕ) :
    (measure_shape_check rows cols dim = .error .invalidOperator ↔
      (rows ≠ cols ∨ rows ≠ dim))
    ∧ (rows = cols → rows = dim →
        measure_shape_check rows cols dim = .ok ()) := by
  constructor
  · by_cases h1 : rows = cols
    · by_cases h2 : rows = dim
      · rw [measure_shape_check, if_neg (by omega), if_neg (by omega)]
        constructor
        · intro h; exact absurd h (by simp)
        · intro h; omega
      · rw [measure_shape_check, if_neg (by omega), if_pos h2]
        exact ⟨fun _ => Or.inr h2, fun _ => rfl⟩
    · rw [measure_shape_check, if_pos h1]
      exact ⟨fun _ => Or.inl h1, fun _ => rfl⟩
  · intro h1 h2
    rw [measure_shape_check, if_neg (by omega), if_neg (by omega)]

/-- Closed witness for `C9_measure_operator_validation`: a 2×2 operator on a
2-dimensional state passes the validation. -/
theorem C9_measure_operator_validation_witness :
    measure_shape_check 2 2 2 = .ok () :=
  (C9_measure_operator_validation 2 2 2).2 rfl rfl

/-! ## `QKDProtocol.run_one_step` (src/qkd_protocols.py lines 84–104) -/

/-- The protocol-level state of a `QKDProtocol` object (src/qkd_protocols.py
lines 24–35): the abort flag, the counters, the security/key-length fields,
the per-iteration history, the classical channel and the parties.  The
channel and party ledgers are abstracted as type parameters `χ` and `ρ`:
`run_one_step` touches them only through the operations it is parameterised
over, and the aborted branch (C5) touches them not at all. -/
structure ProtocolState (χ ρ : Type) where
  protocol_secure : Bool
  timestep : ℕ
  num_iterations : ℕ
  security : ℝ
  key_length : ℕ
  stored_data : ℕ → Option (ℝ × ℕ)
  cchl : χ
  parties : ρ

/-- Method `QKDProtocol.run_one_step` (src/qkd_protocols.py lines 84–104), with the
protocol-variant iteration (`self.protocol()`, which mutates the state and
returns the secure flag) and the sub-operations `next_timestep`,
`store_timestep_data`, `update_security` and `update_key_length` passed as
function parameters; `display_data` only prints and is omitted.  The whole
body is guarded by `if self.protocol_secure:`. -/
def run_one_step {χ ρ : Type}
    (protocol : ProtocolState χ ρ → ProtocolState χ ρ × Bool)
    (next_timestep store_timestep_data update_security update_key_length :
      ProtocolState χ ρ → ProtocolState χ ρ)
    (s : ProtocolState χ ρ) : ProtocolState χ ρ :=
  if s.protocol_secure then
    let r := protocol s
    let s₁ := { r.1 with protocol_secure := r.2 }
    let s₂ := if s₁.protocol_secure then next_timestep s₁
              else store_timestep_data s₁
    let s₃ := update_key_length (update_security s₂)
    { s₃ with num_iterations := s₃.num_iterations + 1 }
  else s

/-- C5: the aborted state is terminal.  If `protocol_secure` is false,
`run_one_step` is the identity for every protocol-variant iteration and
every choice of the sub-operations: no iteration runs, every field
(timestep, iteration counter, security, key length, stored history,
classical channel, party ledgers) is unchanged, and in particular
`protocol_secure` never returns to true. -/
theorem C5_aborted_is_terminal {χ ρ : Type}
    (protocol : ProtocolState χ ρ → ProtocolState χ ρ × Bool)
    (next_timestep store_timestep_data update_security update_key_length :
      ProtocolState χ ρ → ProtocolState χ ρ)
    (s : ProtocolState χ ρ) (hs : s.protocol_secure = false) :
    run_one_step protocol next_timestep store_timestep_data
      update_security update_key_length s = s
    ∧ (run_one_step protocol next_timestep store_timestep_data
        update_security update_key_length s).protocol_secure = false := by
  have h : run_one_step protocol next_timestep store_timestep_data
      update_security update_key_length s = s := by
    rw [run_one_step, hs]
    simp
  exact ⟨h, by rw [h, hs]⟩

/-- Closed witness for `C5_aborted_is_terminal` at a concrete aborted state
and a protocol iteration that would flip every field if it ran. -/
theorem C5_aborted_is_terminal_witness :
    run_one_step (χ := Unit) (ρ := Unit)
      (fun s => ({ s with timestep := s.timestep + 7,
                          protocol_secure := true }, true))
      id id id id
      ⟨false, 3, 5, 0, 0, fun _ => none, (), ()⟩
      = ⟨false, 3, 5, 0, 0, fun _ => none, (), ()⟩ :=
  (C5_aborted_is_terminal _ id id id id _ rfl).1

/-! ## `Party` key bookkeeping (src/components.py lines 353–426)

A Python dict `{timestep: {uid: value}}` is modelled extensionally as a
function `ℕ → ℕ → Option β`; `β` is the type of recorded bit values (in the
source a recorded bit may itself be Python `None` when forwarding without
measuring, so `β` is kept generic). -/

/-- The key-related state of a `Party` (src/components.py lines 193–232). -/
structure PartyKeys (β : Type) where
  timestep : ℕ
  tx_bits : ℕ → ℕ → Option β
  rx_bits : ℕ → ℕ → Option β
  sifted_keys : ℕ → ℕ → Option β
  secret_keys : ℕ → ℕ → Option β

/-- Method `Party.store_value_in_dict` (src/components.py lines 353–358):
`d[self.timestep][key] = val`, creating the inner dict if needed. -/
def store_value_in_dict {β : Type} (timestep : ℕ) (d : ℕ → ℕ → Option β)
    (key : ℕ) (val : β) : ℕ → ℕ → Option β :=
  fun t u => if t = timestep ∧ u = key then some val else d t u

/-- Method `Party.synch_sifted_and_secret_keys` (src/components.py lines 424–426):
`secret_keys := copy.deepcopy(sifted_keys)`.  A deep copy has the same
content as the original, which in this extensional model is equality. -/
def synch_sifted_and_secret_keys {β : Type} (P : PartyKeys β) : PartyKeys β :=
  { P with secret_keys := P.sifted_keys }

/-- Method `Party.add_bit_to_keys` (src/components.py lines 390–405): store the
current-timestep rx bit for `uid` into `sifted_keys` if present, then
overwrite it with the tx bit if that is present, then synchronise
`secret_keys`. -/
def add_bit_to_keys {β : Type} (P : PartyKeys β) (uid : ℕ) : PartyKeys β :=
  let sifted₁ := match P.rx_bits P.timestep uid with
    | some bit => store_value_in_dict P.timestep P.sifted_keys uid bit
    | none => P.sifted_keys
  let sifted₂ := match P.tx_bits P.timestep uid with
    | some bit => store_value_in_dict P.timestep sifted₁ uid bit
    | none => sifted₁
  synch_sifted_and_secret_keys { P with sifted_keys := sifted₂ }

/-- Method `Party.add_all_bits_to_keys` (src/components.py lines 407–422): for every
uid recorded in `rx_bits[self.timestep]` store its rx bit into
`sifted_keys[self.timestep]`, then overwrite with the tx bit for every uid
recorded in `tx_bits[self.timestep]`, then synchronise `secret_keys`. -/
def add_all_bits_to_keys {β : Type} (P : PartyKeys β) : PartyKeys β :=
  let sifted₁ : ℕ → ℕ → Option β := fun t u =>
    if t = P.timestep then
      match P.rx_bits P.timestep u with
      | some bit => some bit
      | none => P.sifted_keys t u
    else P.sifted_keys t u
  let sifted₂ : ℕ → ℕ → Option β := fun t u =>
    if t = P.timestep then
      match P.tx_bits P.timestep u with
      | some bit => some bit
      | none => sifted₁ t u
    else sifted₁ t u
  synch_sifted_and_secret_keys { P with sifted_keys := sifted₂ }

/-- C6: after `add_bit_to_keys(peer_uid)` — and likewise for every peer
under `add_all_bits_to_keys` — a recorded tx bit for the peer at the current
timestep ends up in `sifted_keys` even when an rx bit was also recorded (tx
takes precedence); with no tx bit, a recorded rx bit ends up in
`sifted_keys`; and afterwards `secret_keys` equals (is a deep copy of)
`sifted_keys`. -/
theorem C6_sifting_tx_precedence {β : Type} (P : PartyKeys β) (uid : ℕ)
    (b : β) :
    (P.tx_bits P.timestep uid = some b →
      (add_bit_to_keys P uid).sifted_keys P.timestep uid = some b)
    ∧ (P.tx_bits P.timestep uid = none →
        P.rx_bits P.timestep uid = some b →
        (add_bit_to_keys P uid).sifted_keys P.timestep uid = some b)
    ∧ (add_bit_to_keys P uid).secret_keys
        = (add_bit_to_keys P uid).sifted_keys
    ∧ (P.tx_bits P.timestep uid = some b →
        (add_all_bits_to_keys P).sifted_keys P.timestep uid = some b)
    ∧ (P.tx_bits P.timestep uid = none →
        P.rx_bits P.timestep uid = some b →
        (add_all_bits_to_keys P).sifted_keys P.timestep uid = some b)
    ∧ (add_all_bits_to_keys P).secret_keys
        = (add_all_bits_to_keys P).sifted_keys := by
  refine ⟨?_, ?_, rfl, ?_, ?_, rfl⟩
  · intro htx
    simp only [add_bit_to_keys, synch_sifted_and_secret_keys, htx,
      store_value_in_dict]
    simp
  · intro htx hrx
    simp only [add_bit_to_keys, synch_sifted_and_secret_keys, htx, hrx,
      store_value_in_dict]
    simp
  · intro htx
    simp only [add_all_bits_to_keys, synch_sifted_and_secret_keys, htx]
    simp
  · intro htx hrx
    simp only [add_all_bits_to_keys, synch_sifted_and_secret_keys, htx, hrx]
    simp

/-- Closed witness for `C6_sifting_tx_precedence`: a party that at timestep
0 recorded tx bit `true` and rx bit `false` for peer 1 sifts the tx bit. -/
theorem C6_sifting_tx_precedence_witness :
    (add_bit_to_keys
      ⟨0, fun t u => if t = 0 ∧ u = 1 then some true else none,
          fun t u => if t = 0 ∧ u = 1 then some false else none,
          fun _ _ => none, fun _ _ => none⟩ 1).sifted_keys 0 1
      = some true :=
  (C6_sifting_tx_precedence
    ⟨0, fun t u => if t = 0 ∧ u = 1 then some true else none,
        fun t u => if t = 0 ∧ u = 1 then some false else none,
        fun _ _ => none, fun _ _ => none⟩ 1 true).1 (by simp)

/-! ## `ClassicalChannel` (src/components.py lines 956–1042)

`tstep_messages` maps each sender uid to the ordered list of messages it has
posted; `add_message` appends.  Each retrieval method loops over a sender's
messages in insertion order, re-assigning its result variable on every
match, so the payload of the last matching message wins.  The initial value
of the result variable (`{}`, or `math.inf` for `get_msg_key_length`) is
modelled as `none`; the message payload type is the parameter `α`. -/

/-- A classical-channel message (src/components.py, e.g. lines 459–463):
`{"timestep": t, "type": ty, "data": d}`. -/
structure CMessage (α : Type) where
  timestep : ℕ
  type : String
  data : α

/-- Method `ClassicalChannel.add_message` (src/components.py lines 1038–1042). -/
def add_message {α : Type} (ch : ℕ → List (CMessage α)) (sender_uid : ℕ)
    (message : CMessage α) : ℕ → List (CMessage α) :=
  fun uid => if uid = sender_uid then ch uid ++ [message] else ch uid

/-- The retrieval loop shared by all five getters (src/components.py lines
985–1032): scan the sender's messages in insertion order, overwriting the
result with the payload of every message whose type and timestep match. -/
def retrieve_msg {α : Type} (msgs : List (CMessage α)) (ty : String)
    (t : ℕ) : Option α :=
  msgs.foldl
    (fun acc msg =>
      if msg.type = ty ∧ msg.timestep = t then some msg.data else acc)
    none

/-- Method `ClassicalChannel.get_tx_bases` (src/components.py lines 985–993),
per sender uid. -/
def get_tx_bases {α : Type} (ch : ℕ → List (CMessage α)) (t : ℕ) :
    ℕ → Option α :=
  fun tx_uid => retrieve_msg (ch tx_uid) "broadcast_tx_bases" t

/-- Method `ClassicalChannel.get_rx_bases` (src/components.py lines 995–1003),
per sender uid. -/
def get_rx_bases {α : Type} (ch : ℕ → List (CMessage α)) (t : ℕ) :
    ℕ → Option α :=
  fun rx_uid => retrieve_msg (ch rx_uid) "broadcast_rx_bases" t

/-- Method `ClassicalChannel.get_msg_check_bits` (src/components.py lines
1005–1013). -/
def get_msg_check_bits {α : Type} (ch : ℕ → List (CMessage α))
    (t sender_uid : ℕ) : Option α :=
  retrieve_msg (ch sender_uid) "broadcast_check_bits" t

/-- Method `ClassicalChannel.get_flip_bit_instructions` (src/components.py lines
1015–1023). -/
def get_flip_bit_instructions {α : Type} (ch : ℕ → List (CMessage α))
    (t sender_uid : ℕ) : Option α :=
  retrieve_msg (ch sender_uid) "broadcast_flip_bit_instructions" t

/-- Method `ClassicalChannel.get_msg_key_length` (src/components.py lines
1025–1032). -/
def get_msg_key_length {α : Type} (ch : ℕ → List (CMessage α))
    (t sender_uid : ℕ) : Option α :=
  retrieve_msg (ch sender_uid) "broadcast_key_length" t

/-- The overwrite-on-match fold returns the payload of the last matching
message, or the initial value if none matches. -/
lemma foldl_pick_last {α : Type} (p : CMessage α → Prop) [DecidablePred p]
    (init : Option α) (msgs : List (CMessage α)) :
    msgs.foldl (fun acc m => if p m then some m.data else acc) init
    = match (msgs.filter fun m => decide (p m)).getLast? with
      | some m => some m.data
      | none => init := by
  induction msgs using List.reverseRecOn with
  | nil => rfl
  | append_singleton l m ih =>
    rw [List.foldl_append, List.filter_append]
    by_cases hm : p m
    · simp [hm]
    · simp [hm, ih]

lemma retrieve_msg_eq_getLast {α : Type} (msgs : List (CMessage α))
    (ty : String) (t : ℕ) :
    retrieve_msg msgs ty t
    = match (msgs.filter fun m =>
        decide (m.type = ty ∧ m.timestep = t)).getLast? with
      | some m => some m.data
      | none => none :=
  foldl_pick_last (fun m => m.type = ty ∧ m.timestep = t) none msgs

/-- C10: when several messages of the same kind from the same sender carry
the same timestep tag, every retrieval method of the `ClassicalChannel`
returns the payload of the most recently posted matching message — the last
in insertion order (`add_message` appends) — not the first and not an
error. -/
theorem C10_retrieval_returns_last {α : Type} :
    (∀ (ch : ℕ → List (CMessage α)) (sender_uid : ℕ)
        (message : CMessage α),
      add_message ch sender_uid message sender_uid
        = ch sender_uid ++ [message])
    ∧ (∀ (ch : ℕ → List (CMessage α)) (t uid : ℕ) (m : CMessage α),
        ((ch uid).filter fun msg =>
          decide (msg.type = "broadcast_tx_bases" ∧ msg.timestep = t)
          ).getLast? = some m →
        get_tx_bases ch t uid = some m.data)
    ∧ (∀ (ch : ℕ → List (CMessage α)) (t uid : ℕ) (m : CMessage α),
        ((ch uid).filter fun msg =>
          decide (msg.type = "broadcast_rx_bases" ∧ msg.timestep = t)
          ).getLast? = some m →
        get_rx_bases ch t uid = some m.data)
    ∧ (∀ (ch : ℕ → List (CMessage α)) (t uid : ℕ) (m : CMessage α),
        ((ch uid).filter fun msg =>
          decide (msg.type = "broadcast_check_bits" ∧ msg.timestep = t)
          ).getLast? = some m →
        get_msg_check_bits ch t uid = some m.data)
    ∧ (∀ (ch : ℕ → List (CMessage α)) (t uid : ℕ) (m : CMessage α),
        ((ch uid).filter fun msg =>
          decide (msg.type = "broadcast_flip_bit_instructions"
            ∧ msg.timestep = t)).getLast? = some m →
        get_flip_bit_instructions ch t uid = some m.data)
    ∧ (∀ (ch : ℕ → List (CMessage α)) (t uid : ℕ) (m : CMessage α),
        ((ch uid).filter fun msg =>
          decide (msg.type = "broadcast_key_length" ∧ msg.timestep = t)
          ).getLast? = some m →
        get_msg_key_length ch t uid = some m.data) := by
  refine ⟨fun ch s msg => by simp [add_message], ?_, ?_, ?_, ?_, ?_⟩
  all_goals
    intro ch t uid m hm
    simp only [get_tx_bases, get_rx_bases, get_msg_check_bits,
      get_flip_bit_instructions, get_msg_key_length,
      retrieve_msg_eq_getLast, hm]

/-- Closed witness for `C10_retrieval_returns_last`: two check-bit messages
from sender 0 tagged with timestep 0; retrieval returns the payload of the
second. -/
theorem C10_retrieval_returns_last_witness :
    get_msg_check_bits
      (fun u => if u = 0 then
        [⟨0, "broadcast_check_bits", (5 : ℕ)⟩,
         ⟨0, "broadcast_check_bits", 9⟩] else []) 0 0 = some 9 :=
  C10_retrieval_returns_last.2.2.2.1
    (fun u => if u = 0 then
      [⟨0, "broadcast_check_bits", (5 : ℕ)⟩,
       ⟨0, "broadcast_check_bits", 9⟩] else []) 0 0
    ⟨0, "broadcast_check_bits", 9⟩ (by rfl)

/-! ## Check-bit broadcast and eavesdropping test
(src/components.py lines 456–480) -/

/-- Function `shared_fns.reorder_by_uid` (src/shared_fns.py lines 55–67):
`{timestep: {uid: value}}` becomes `{uid: {timestep: value}}`; a uid is a
key of the result exactly when some timestep records it. -/
def reorder_by_uid {β : Type} (d : ℕ → ℕ → Option β) : ℕ → ℕ → Option β :=
  fun uid t => d t uid

/-- Method `Party.broadcast_check_bits` (src/components.py lines 456–464): post a
message carrying (a deep copy of) the party's entire `check_bits` dict,
tagged with the current timestep. -/
def broadcast_check_bits {β : Type}
    (ch : ℕ → List (CMessage (ℕ → ℕ → Option β))) (uid t : ℕ)
    (check_bits : ℕ → ℕ → Option β) :
    ℕ → List (CMessage (ℕ → ℕ → Option β)) :=
  add_message ch uid ⟨t, "broadcast_check_bits", check_bits⟩

/-- Method `Party.receive_check_bits` (src/components.py lines 466–480): fetch the
sender's posted check bits (`{}` — modelled as the everywhere-`none` dict —
if no message matches), reorder both dicts by uid, and append `sender_uid`
to `compromised_chls` when the sender has recorded check bits for this
party, this party has recorded check bits for the sender, and the two
timestep-indexed inner dicts are unequal *as dicts*. -/
noncomputable def receive_check_bits {β : Type}
    (ch : ℕ → List (CMessage (ℕ → ℕ → Option β))) (t : ℕ)
    (self_uid sender_uid : ℕ) (own_check_bits : ℕ → ℕ → Option β)
    (compromised_chls : List ℕ) : List ℕ :=
  let sender_check_bits :=
    (get_msg_check_bits ch t sender_uid).getD (fun _ _ => none)
  let sender_by_uid := reorder_by_uid sender_check_bits
  let own_by_uid := reorder_by_uid own_check_bits
  open Classical in
  if (∃ ts, (sender_by_uid self_uid ts).isSome = true)
      ∧ (∃ ts, (own_by_uid sender_uid ts).isSome = true)
      ∧ sender_by_uid self_uid ≠ own_by_uid sender_uid
  then compromised_chls ++ [sender_uid]
  else compromised_chls

/-- The party's own check bits in the C3 counterexample: a single check bit
for peer 1, recorded at timestep 0, with value `true`. -/
def own_cb₀ : ℕ → ℕ → Option Bool :=
  fun t u => if t = 0 ∧ u = 1 then some true else none

/-- The peer's check bits in the C3 counterexample: a single check bit for
party 0, recorded at timestep 1, with the same value `true`. -/
def sender_cb₀ : ℕ → ℕ → Option Bool :=
  fun t u => if t = 1 ∧ u = 0 then some true else none

/-- The classical channel of the C3 counterexample: peer 1 has broadcast its
check bits at timestep 0. -/
def cchl₀ : ℕ → List (CMessage (ℕ → ℕ → Option Bool)) :=
  broadcast_check_bits (fun _ => []) 1 0 sender_cb₀

/-- C3 counterexample: after peer 1's `broadcast_check_bits` and party 0's
`receive_check_bits(1)`, peer 1 IS added to `compromised_chls`, although
there is NO timestep at which both parties recorded a check bit for each
other with differing values (the two parties recorded their single — equal —
check bits at different timesteps, so the inner dicts compare unequal). -/
theorem C3_counterexample :
    receive_check_bits cchl₀ 0 0 1 own_cb₀ [] = [1]
    ∧ ¬∃ ts, (sender_cb₀ ts 0).isSome = true ∧ (own_cb₀ ts 1).isSome = true
        ∧ sender_cb₀ ts 0 ≠ own_cb₀ ts 1 := by
  constructor
  · have hget : get_msg_check_bits cchl₀ 0 1 = some sender_cb₀ := by
      simp [cchl₀, broadcast_check_bits, add_message, get_msg_check_bits,
        retrieve_msg]
    have hcond :
        (∃ ts, (reorder_by_uid ((get_msg_check_bits cchl₀ 0 1).getD
          fun _ _ => none) 0 ts).isSome = true)
        ∧ (∃ ts, (reorder_by_uid own_cb₀ 1 ts).isSome = true)
        ∧ reorder_by_uid ((get_msg_check_bits cchl₀ 0 1).getD
            fun _ _ => none) 0 ≠ reorder_by_uid own_cb₀ 1 := by
      rw [hget]
      refine ⟨⟨1, by simp [reorder_by_uid, sender_cb₀]⟩,
        ⟨0, by simp [reorder_by_uid, own_cb₀]⟩, ?_⟩
      intro h
      have h0 := congrFun h 0
      simp [reorder_by_uid, sender_cb₀, own_cb₀] at h0
    simp only [receive_check_bits]
    rw [if_pos hcond]
    simp
  · rintro ⟨ts, h1, h2, _⟩
    have hts : ts = 1 := by
      by_contra hne
      simp [sender_cb₀, hne] at h1
    subst hts
    simp [own_cb₀] at h2

/-- C3 amended: the peer is added to `compromised_chls` if and only if the
peer has recorded a check bit for the party at some timestep, the party has
recorded a check bit for the peer at some (possibly different) timestep, and
the two timestep-indexed check-bit records for each other differ at some
timestep — either a timestep recorded on only one side, or one recorded on
both sides with different values (Python's `!=` compares the inner dicts as
a whole, not value-by-value on common timesteps). -/
theorem C3_receive_check_bits_amended {β : Type}
    (ch : ℕ → List (CMessage (ℕ → ℕ → Option β))) (t : ℕ)
    (self_uid sender_uid : ℕ) (own_check_bits : ℕ → ℕ → Option β)
    (compromised_chls : List ℕ) :
    receive_check_bits ch t self_uid sender_uid own_check_bits
        compromised_chls
      = compromised_chls ++ [sender_uid]
    ↔ ((∃ ts, (((get_msg_check_bits ch t sender_uid).getD
          (fun _ _ => none)) ts self_uid).isSome = true)
      ∧ (∃ ts, (own_check_bits ts sender_uid).isSome = true)
      ∧ (∃ ts, ((get_msg_check_bits ch t sender_uid).getD
          (fun _ _ => none)) ts self_uid ≠ own_check_bits ts sender_uid)) := by
  classical
  set scb := (get_msg_check_bits ch t sender_uid).getD (fun _ _ => none)
    with hscb
  have hiff :
      ((∃ ts, (reorder_by_uid scb self_uid ts).isSome = true)
        ∧ (∃ ts, (reorder_by_uid own_check_bits sender_uid ts).isSome = true)
        ∧ reorder_by_uid scb self_uid
            ≠ reorder_by_uid own_check_bits sender_uid)
      ↔ ((∃ ts, (scb ts self_uid).isSome = true)
        ∧ (∃ ts, (own_check_bits ts sender_uid).isSome = true)
        ∧ (∃ ts, scb ts self_uid ≠ own_check_bits ts sender_uid)) := by
    refine and_congr Iff.rfl (and_congr Iff.rfl ?_)
    rw [Function.ne_iff]
    exact Iff.rfl
  by_cases hcond :
      (∃ ts, (reorder_by_uid scb self_uid ts).isSome = true)
        ∧ (∃ ts, (reorder_by_uid own_check_bits sender_uid ts).isSome = true)
        ∧ reorder_by_uid scb self_uid
            ≠ reorder_by_uid own_check_bits sender_uid
  · rw [receive_check_bits]
    simp only [← hscb]
    rw [if_pos hcond]
    simp only [iff_true_intro (hiff.mp hcond)]
  · rw [receive_check_bits]
    simp only [← hscb]
    rw [if_neg hcond]
    constructor
    · intro h
      have := congrArg List.length h
      simp at this
    · intro h
      exact absurd (hiff.mpr h) hcond

/-! ## `Qubit.measure` and `shared_fns.get_measurement_operator`
(src/state.py lines 160–187, src/shared_fns.py lines 4–16)

`Qubit.measure` builds the eigenvalue pattern
`([0] * 2^pos + [1] * 2^pos) * 2^(n-1-pos)` and the eigenvector matrix
`np.kron(I_{2^(n-1-pos)}, np.kron(eigh(O)[1], I_{2^pos}))`, then calls
`get_measurement_operator` and measures the full state with the result.  The
two identity factors are indexed here by abstract finite types `A`
(dimension `2^(n-1-pos)`) and `B` (dimension `2^pos`); numpy's row-major
Kronecker flattening maps the flat index `c·2^(pos+1) + a·2^pos + b` to the
structured index `(c, a, b)`, under which the eigenvalue pattern is
`(c, a, b) ↦ a`. -/

/-- Function `shared_fns.get_measurement_operator` (src/shared_fns.py lines 4–16):
`D = np.diag(eigenvalues); V = np.array(eigenvectors).T;
M = V @ D @ np.linalg.inv(V)`.  Per its docstring — and per its other call
sites (`Party.receive`, the unit tests) — the `eigenvectors` argument is a
matrix whose ROWS are the intended eigenvectors, which the function
transposes into columns. -/
noncomputable def get_measurement_operator {ι : Type} [Fintype ι]
    [DecidableEq ι] (eigenvalues : ι → ℝ) (eigenvectors : Matrix ι ι ℝ) :
    Matrix ι ι ℝ :=
  eigenvectorsᵀ * Matrix.diagonal eigenvalues * (eigenvectorsᵀ)⁻¹

/-- The rounded eigenvalues `[0, 1]` of a measurement-operator basis: column
`j` of the `eigh` output carries eigenvalue `j` (ascending order). -/
def eigenvalues01 : Fin 2 → ℝ := fun j => ((j : ℕ) : ℝ)

/-- Pattern `state_evalues` of `Qubit.measure` (src/state.py lines 166–169) under
the structured Kronecker index. -/
def qubit_state_evalues (A B : Type) : A × Fin 2 × B → ℝ :=
  fun x => eigenvalues01 x.2.1

/-- Matrix `state_evectors` of `Qubit.measure` (src/state.py lines 179–180):
`np.kron(I, np.kron(W, I))`, where `W = np.linalg.eigh(operator)[1]` is the
matrix whose COLUMNS are the operator's eigenvectors. -/
def qubit_state_evectors (A B : Type) [Fintype A] [DecidableEq A]
    [Fintype B] [DecidableEq B] (W : Matrix (Fin 2) (Fin 2) ℝ) :
    Matrix (A × Fin 2 × B) (A × Fin 2 × B) ℝ :=
  (1 : Matrix A A ℝ) ⊗ₖ (W ⊗ₖ (1 : Matrix B B ℝ))

/-- The operator that `Qubit.measure` actually passes to
`NQubitState.measure` (src/state.py lines 184–187). -/
noncomputable def qubit_measure_operator (A B : Type) [Fintype A]
    [DecidableEq A] [Fintype B] [DecidableEq B]
    (W : Matrix (Fin 2) (Fin 2) ℝ) : Matrix (A × Fin 2 × B) (A × Fin 2 × B) ℝ :=
  get_measurement_operator (qubit_state_evalues A B) (qubit_state_evectors A B W)

lemma qubit_state_evectors_transpose (A B : Type) [Fintype A] [DecidableEq A]
    [Fintype B] [DecidableEq B] (W : Matrix (Fin 2) (Fin 2) ℝ) :
    (qubit_state_evectors A B W)ᵀ
      = (1 : Matrix A A ℝ) ⊗ₖ (Wᵀ ⊗ₖ (1 : Matrix B B ℝ)) := by
  rw [qubit_state_evectors, ← Matrix.kroneckerMap_transpose,
    ← Matrix.kroneckerMap_transpose, Matrix.transpose_one,
    Matrix.transpose_one]

lemma diagonal_qubit_state_evalues (A B : Type) [Fintype A] [DecidableEq A]
    [Fintype B] [DecidableEq B] :
    Matrix.diagonal (qubit_state_evalues A B)
      = (1 : Matrix A A ℝ)
          ⊗ₖ (Matrix.diagonal eigenvalues01 ⊗ₖ (1 : Matrix B B ℝ)) := by
  rw [show (1 : Matrix A A ℝ) = Matrix.diagonal (fun _ => 1) from
      Matrix.diagonal_one.symm,
    show (1 : Matrix B B ℝ) = Matrix.diagonal (fun _ => 1) from
      Matrix.diagonal_one.symm,
    Matrix.diagonal_kronecker_diagonal, Matrix.diagonal_kronecker_diagonal]
  refine congrArg Matrix.diagonal (funext fun x => ?_)
  simp [qubit_state_evalues]

/-- What `Qubit.measure` actually builds: conjugating the diagonal pattern
by the TRANSPOSE of the lifted eigenvector matrix yields
`I ⊗ (Wᵀ D W) ⊗ I` — the eigenspaces are spanned by the ROWS of the `eigh`
output, not its columns. -/
lemma qubit_measure_operator_eq (A B : Type) [Fintype A] [DecidableEq A]
    [Fintype B] [DecidableEq B] (W : Matrix (Fin 2) (Fin 2) ℝ)
    (hW : Wᵀ * W = 1) :
    qubit_measure_operator A B W
      = (1 : Matrix A A ℝ)
          ⊗ₖ ((Wᵀ * Matrix.diagonal eigenvalues01 * W)
            ⊗ₖ (1 : Matrix B B ℝ)) := by
  have hKinv : ((qubit_state_evectors A B W)ᵀ)⁻¹
      = qubit_state_evectors A B W := by
    apply Matrix.inv_eq_right_inv
    rw [qubit_state_evectors_transpose, qubit_state_evectors]
    rw [← Matrix.mul_kronecker_mul, ← Matrix.mul_kronecker_mul, hW]
    simp only [one_mul, Matrix.one_kronecker_one]
  rw [qubit_measure_operator, get_measurement_operator, hKinv,
    qubit_state_evectors_transpose, diagonal_qubit_state_evalues,
    qubit_state_evectors]
  rw [← Matrix.mul_kronecker_mul, ← Matrix.mul_kronecker_mul,
    ← Matrix.mul_kronecker_mul, ← Matrix.mul_kronecker_mul]
  simp only [one_mul, mul_one]

/-- A valid `eigh` eigenvector output for `O₀`: the columns `(3/5, 4/5)`
(eigenvalue 0, ascending first) and `(-4/5, 3/5)` (eigenvalue 1) are an
orthonormal eigenbasis.  This matrix is a rotation, hence not symmetric. -/
noncomputable def W₀ : Matrix (Fin 2) (Fin 2) ℝ :=
  ![![3 / 5, -4 / 5], ![4 / 5, 3 / 5]]

/-- A 2×2 measurement operator with eigenvalues `{0, 1}`:
`O₀ = W₀ · diag(0, 1) · W₀ᵀ`, the projector onto span `(-4/5, 3/5)`. -/
noncomputable def O₀ : Matrix (Fin 2) (Fin 2) ℝ :=
  ![![16 / 25, -12 / 25], ![-12 / 25, 9 / 25]]

/-- The operator `Qubit.measure` actually builds from `W₀`:
`W₀ᵀ · diag(0, 1) · W₀`, the projector onto span `(4/5, 3/5)` — a different
operator with different eigenspaces. -/
noncomputable def M₀ : Matrix (Fin 2) (Fin 2) ℝ :=
  ![![16 / 25, 12 / 25], ![12 / 25, 9 / 25]]

/-- C7 (code bug, evaluated at the failing input): for the single-qubit case
(`n = 1`, `pos = 0`, both identity factors trivial) and the operator `O₀`
with `eigh` eigenvectors `W₀`, the operator that `Qubit.measure` constructs
and measures with is `I ⊗ M₀ ⊗ I`, which is NOT the Kronecker-lifted
operator `I ⊗ O₀ ⊗ I` demanded by the claim: `get_measurement_operator`
expects eigenvectors as rows (its docstring and every other call site), but
`Qubit.measure` hands it the column-eigenvector matrix produced by
`np.linalg.eigh` and `np.kron`, so the built operator's eigenspaces are
spanned by the rows of the `eigh` output instead of its columns. -/
theorem C7_qubit_measure_transpose_bug :
    (W₀ᵀ * W₀ = 1)
    ∧ (W₀ * Matrix.diagonal eigenvalues01 * W₀ᵀ = O₀)
    ∧ qubit_measure_operator (Fin 1) (Fin 1) W₀
        = (1 : Matrix (Fin 1) (Fin 1) ℝ)
            ⊗ₖ (M₀ ⊗ₖ (1 : Matrix (Fin 1) (Fin 1) ℝ))
    ∧ qubit_measure_operator (Fin 1) (Fin 1) W₀
        ≠ (1 : Matrix (Fin 1) (Fin 1) ℝ)
            ⊗ₖ (O₀ ⊗ₖ (1 : Matrix (Fin 1) (Fin 1) ℝ)) := by
  have hW : W₀ᵀ * W₀ = 1 := by
    ext i j
    fin_cases i <;> fin_cases j <;>
      norm_num [Matrix.mul_apply, Fin.sum_univ_two, W₀,
        Matrix.transpose_apply, Matrix.one_apply]
  have hM : W₀ᵀ * Matrix.diagonal eigenvalues01 * W₀ = M₀ := by
    ext i j
    fin_cases i <;> fin_cases j <;>
      norm_num [Matrix.mul_apply, Fin.sum_univ_two, W₀, M₀,
        Matrix.transpose_apply, Matrix.diagonal_apply, eigenvalues01]
  have hbuilt : qubit_measure_operator (Fin 1) (Fin 1) W₀
      = (1 : Matrix (Fin 1) (Fin 1) ℝ)
          ⊗ₖ (M₀ ⊗ₖ (1 : Matrix (Fin 1) (Fin 1) ℝ)) := by
    rw [qubit_measure_operator_eq (Fin 1) (Fin 1) W₀ hW, hM]
  refine ⟨hW, ?_, hbuilt, ?_⟩
  · ext i j
    fin_cases i <;> fin_cases j <;>
      norm_num [Matrix.mul_apply, Fin.sum_univ_two, W₀, O₀,
        Matrix.transpose_apply, Matrix.diagonal_apply, eigenvalues01]
  · rw [hbuilt]
    intro h
    have h01 := congrFun (congrFun h (0, 0, 0)) (0, 1, 0)
    norm_num [Matrix.kroneckerMap_apply, Matrix.one_apply, M₀, O₀] at h01
